import Mathlib

/-!
# Verification of the manga-translator core against its specification

Shallow embedding of the core algorithms of the repository:

* the two word-wrapping/truncating text renderers
  (`MangaProcessor._draw_text_with_wrapping` in `src/manga_processor.py` and
  `RenderingService._draw_text_with_wrapping` in
  `src/backend/app/services/rendering.py`),
* the job pipeline state updates (`src/backend/app/tasks.py` and
  `process_file` in `src/backend/app/simplified_main.py`),
* region detection filtering/padding (`MangaProcessor.detect_text_regions`),
* OCR result filtering (`OCRService.process_image`,
  `MangaProcessor.perform_ocr`),
* translation fallback (`MangaProcessor.translate_text`),
* pixel-level rendering (`MangaProcessor.render_translated_image` and
  `RenderingService.render_text_on_image`), and
* language registry handling (`OCRService._map_language_to_tesseract`,
  `TranslationService._get_model_name`, `upload_file` in
  `simplified_main.py`).

Pixel widths returned by `draw.textlength` and font metrics from
`font.getbbox` are modelled as natural numbers supplied by an abstract
width function `W : String → Nat` and line-height parameters, since the
claims under verification are order-theoretic in these quantities.
-/

namespace MangaTranslator

/-! ## Word wrapping

Both implementations build each candidate line by joining words with a
single space (`current_line + " " + word` in `manga_processor.py`,
`' '.join(line)` in `rendering.py`) and measure it with
`draw.textlength`. -/

/-- The string a list of words is rendered as: words joined by single
spaces, exactly as both Python implementations build their line strings. -/
def lineStr (ws : List String) : String := String.intercalate " " ws

/-- Rendered width of a line of words under the abstract text-width
measure `W` (modelling `draw.textlength(line, font=font)`). -/
def lineWidth (W : String → Nat) (ws : List String) : Nat := W (lineStr ws)

/-- Loop body of `MangaProcessor._draw_text_with_wrapping`
(`src/manga_processor.py` lines 244-266).  `current` is `current_line`
(as its word list), `yoff` is `y_offset`; the result is the list of
`(y_offset, line)` pairs actually passed to `draw.text`.  The code draws
the committed line, advances `y_offset` by the line height `lh`
(`font.getbbox("A")[3] + 2`), and breaks out of the word loop once
`y_offset > max_height`; after the loop the final `current_line` is drawn
only if `y_offset <= max_height`. -/
def mangaDrawAux (W : String → Nat) (maxW lh maxH : Nat)
    (current : List String) (yoff : Nat) : List String → List (Nat × List String)
  | [] => if yoff ≤ maxH then [(yoff, current)] else []
  | w :: rest =>
      if lineWidth W (current ++ [w]) ≤ maxW then
        mangaDrawAux W maxW lh maxH (current ++ [w]) yoff rest
      else if yoff + lh > maxH then [(yoff, current)]
      else (yoff, current) :: mangaDrawAux W maxW lh maxH [w] (yoff + lh) rest

/-- The `(y_offset, line)` pairs drawn by
`MangaProcessor._draw_text_with_wrapping` for a given word list
(`text.split()`).  `words = []` corresponds to the early `return`;
otherwise `current_line` starts as `words[0]`. -/
def mangaDraw (W : String → Nat) (maxW lh maxH : Nat) : List String → List (Nat × List String)
  | [] => []
  | w :: rest => mangaDrawAux W maxW lh maxH [w] 0 rest

/-- The line partition computed by the greedy accumulation loop of
`MangaProcessor._draw_text_with_wrapping`, ignoring the vertical
truncation (the `y_offset > max_height` break): a word is appended to the
current line exactly when the candidate line still fits `max_width`. -/
def mangaWrapAux (W : String → Nat) (maxW : Nat)
    (current : List String) : List String → List (List String)
  | [] => [current]
  | w :: rest =>
      if lineWidth W (current ++ [w]) ≤ maxW then
        mangaWrapAux W maxW (current ++ [w]) rest
      else current :: mangaWrapAux W maxW [w] rest

/-- Full greedy line partition of `MangaProcessor._draw_text_with_wrapping`. -/
def mangaWrap (W : String → Nat) (maxW : Nat) : List String → List (List String)
  | [] => []
  | w :: rest => mangaWrapAux W maxW [w] rest

/-- Inner loop of `RenderingService._draw_text_with_wrapping`
(`src/backend/app/services/rendering.py` lines 106-128) acting on one
line: while the line does not fit and has more than one word, its last
word is popped (and, in the source, pushed onto the front of the next
line).  The source guard is `len(lines[line_idx]) == 1`; the loop's lines
are always non-empty, so `≤ 1` keeps the recursion total.  `fuel`
structurally bounds the number of pops; each pop shortens the line by
one word, so `fuel = ws.length` always suffices (`renderFirstLine_eq`
below recovers the fuel-free loop equation). -/
def renderFirstLineFuel (W : String → Nat) (maxW : Nat) : Nat → List String → List String
  | 0, ws => ws
  | fuel + 1, ws =>
      if lineWidth W ws ≤ maxW then ws
      else if ws.length ≤ 1 then ws
      else renderFirstLineFuel W maxW fuel ws.dropLast

/-- The line the pop loop leaves at the current index. -/
def renderFirstLine (W : String → Nat) (maxW : Nat) (ws : List String) : List String :=
  renderFirstLineFuel W maxW ws.length ws

/-- Outer loop of `RenderingService._draw_text_with_wrapping`: each line
keeps its maximal fitting prefix (or its single word) and the popped
suffix becomes the next line, processed in turn.  `fuel` bounds the
number of lines; `fuel = words.length` always suffices because each
produced line is non-empty. -/
def renderWrapFuel (W : String → Nat) (maxW : Nat) : Nat → List String → List (List String)
  | _, [] => []
  | 0, ws => [ws]
  | fuel + 1, ws =>
      let l := renderFirstLine W maxW ws
      l :: renderWrapFuel W maxW fuel (ws.drop l.length)

/-- The line partition computed by `RenderingService._draw_text_with_wrapping`
(`lines` after the wrapping loop).  An empty word list corresponds to the
early `return` (nothing is drawn). -/
def renderWrap (W : String → Nat) (maxW : Nat) (words : List String) : List (List String) :=
  match words with
  | [] => []
  | _ => renderWrapFuel W maxW words.length words

/-- Drawing loop of `RenderingService._draw_text_with_wrapping`
(lines 130-141): each line is drawn at `y_pos`, then `y_pos` advances by
the line height (`font.getbbox("Ay")[3]`), and the loop breaks once
`y_pos > y + height`.  Result: the `(y_pos, line)` pairs passed to
`draw.text`. -/
def renderDrawLines (lh yEnd : Nat) (ypos : Nat) : List (List String) → List (Nat × List String)
  | [] => []
  | l :: rest =>
      (ypos, l) :: (if ypos + lh > yEnd then [] else renderDrawLines lh yEnd (ypos + lh) rest)

/-- The `(y_pos, line)` pairs drawn by
`RenderingService._draw_text_with_wrapping` for box top `y`, box height
`h`, and line height `lh`. -/
def renderDraw (W : String → Nat) (maxW lh y h : Nat) (words : List String) :
    List (Nat × List String) :=
  renderDrawLines lh (y + h) y (renderWrap W maxW words)

/-- Lines laid out top-down from `y0` with line height `lh`: line `i` is
placed at vertical position `y0 + i * lh`. -/
def positionedFrom (lh y0 : Nat) : List (List String) → List (Nat × List String)
  | [] => []
  | l :: L => (y0, l) :: positionedFrom lh (y0 + lh) L

/-- What it means for `lines` to be a greedy wrap of `words` at width
`maxW`: the lines partition the words in order, each line is non-empty
and either fits the width or is a single word, and no line could take the
first word of its successor without exceeding the width.  Both
implementations produce such a partition, and when the width measure is
monotone in appending a word this partition is unique. -/
def GoodWrap (W : String → Nat) (maxW : Nat) (words : List String)
    (lines : List (List String)) : Prop :=
  lines.flatten = words ∧ (∀ l ∈ lines, l ≠ []) ∧
    (∀ l ∈ lines, lineWidth W l ≤ maxW ∨ l.length = 1) ∧
    List.Chain' (fun a b => ¬ lineWidth W (a ++ b.take 1) ≤ maxW) lines

/-! ## Job pipeline

`src/backend/app/tasks.py` runs `ocr_task`, `translation_task` and
`rendering_task` as a Celery chain: a task that raises stops the chain,
so later tasks are never invoked.  Each task mutates the persisted `Job`
row and makes the mutation durable with `db.commit()`; the observable
unit of writing to the job record is therefore the committed row state,
and each task is modelled as the list of row states it commits.  The
in-memory pipeline `process_file` of `simplified_main.py` mutates a job
dict; a contiguous block of assignments with no intervening suspension
point is modelled as one record update.

The service methods the Celery tasks call are `async def`s invoked
WITHOUT `await` (e.g. `translate_ocr_results` at `tasks.py` lines
106/112): such a call only constructs a coroutine and does not run the
service body, so some work the tasks appear to perform never executes,
and for image jobs the chain in fact stalls after `ocr_task` (its
result, carrying coroutine objects, is not JSON-serializable for the
next task).  The per-stage outcome parameter below therefore
OVER-approximates the executions the deployed program can reach: every
commit sequence the real program produces is a prefix of a trace of
this model.  That is the right direction for the safety invariants
proved about the model — a prefix-closed `List.Chain'` property of
every modelled trace holds a fortiori of every real one — and no claim
theorem relies on an error branch being reachable. -/

/-- `JobStatus` from `src/backend/app/models/job.py` (the `simplified_main`
statuses `queued/processing/completed/failed` map onto the same four
values, with `queued` as the initial `pending`). -/
inductive JStatus
  | pending
  | processing
  | completed
  | failed
  deriving DecidableEq, Repr

/-- Terminal job statuses. -/
def JStatus.isTerminal : JStatus → Bool
  | .completed => true
  | .failed => true
  | _ => false

/-- The fields of the persisted `Job` record that the claims refer to. -/
structure JobRec where
  status : JStatus
  progress : Nat
  errorMessage : Option String
  resultFilePath : Option String
  deriving DecidableEq, Repr

/-- A job as created at submission (`main.py upload_file`:
`status=JobStatus.PENDING, progress=0`; error and result unset). -/
def initialJob : JobRec :=
  { status := .pending, progress := 0, errorMessage := none, resultFilePath := none }

/-- Outcome of the fallible work inside one pipeline stage: the stage's
external calls either succeed or raise an exception with message `m`
(`str(e)` in the `except` handlers). -/
inductive StageOutcome
  | ok
  | err (m : String)

/-- Whether a stage outcome is a success. -/
def StageOutcome.isOk : StageOutcome → Bool
  | .ok => true
  | .err _ => false

/-- Committed job-record states of `ocr_task` (`tasks.py` lines 17-84):
first commit sets `status = PROCESSING, progress = 10`; on success the
second commit sets `progress = 40`; on an exception the handler commits
`status = FAILED, error_message = str(e)` and re-raises. -/
def ocr_task (o : StageOutcome) (j : JobRec) : List JobRec :=
  let j1 := { j with status := .processing, progress := 10 }
  match o with
  | .ok => [j1, { j1 with progress := 40 }]
  | .err m => [j1, { j1 with status := .failed, errorMessage := some m }]

/-- Committed job-record states of `translation_task` (`tasks.py` lines
86-132): commits `progress = 50`, then on success `progress = 70`; an
exception inside the `try` is handled by committing `status = FAILED,
error_message = str(e)` and re-raising.  The `err` branch transcribes
that handler; note that the translate call itself, being an unawaited
async call, cannot raise in the deployed program (see the section
comment), so this branch over-approximates the reachable behavior. -/
def translation_task (o : StageOutcome) (j : JobRec) : List JobRec :=
  let j1 := { j with progress := 50 }
  match o with
  | .ok => [j1, { j1 with progress := 70 }]
  | .err m => [j1, { j1 with status := .failed, errorMessage := some m }]

/-- Committed job-record states of `rendering_task` (`tasks.py` lines
134-197): commits `progress = 80`, then on success one commit setting
`status = COMPLETED, progress = 100, result_file_path`; on an exception
commits `status = FAILED, error_message = str(e)`. -/
def rendering_task (o : StageOutcome) (resultPath : String) (j : JobRec) : List JobRec :=
  let j1 := { j with progress := 80 }
  match o with
  | .ok => [j1, { j1 with status := .completed, progress := 100,
                          resultFilePath := some resultPath }]
  | .err m => [j1, { j1 with status := .failed, errorMessage := some m }]

/-- The Celery chain `process_manga = chain(ocr_task, translation_task,
rendering_task)` (`tasks.py` lines 199-206): the committed job-record
states of a whole pipeline run, given the outcome of each stage's work.
A raising task stops the chain, so later tasks contribute no commits.
In the deployed program the stages after `ocr_task` may never run at
all (see the section comment); the outcome-indexed traces are a
superset of the reachable commit sequences. -/
def process_manga (o1 o2 o3 : StageOutcome) (resultPath : String) (j : JobRec) : List JobRec :=
  let c1 := ocr_task o1 j
  if o1.isOk then
    let c2 := translation_task o2 (c1.getLastD j)
    if o2.isOk then
      c1 ++ c2 ++ rendering_task o3 resultPath (c2.getLastD j)
    else c1 ++ c2
  else c1

/-- Where `process_file` in `simplified_main.py` stops: an exception
before the 25% update (e.g. in `create_translator`), an exception raised
by the processing call, or a normal return of the processing call with a
boolean `success`. -/
inductive SimpleOutcome
  | setupError (m : String)
  | procError (m : String)
  | finished (success : Bool)

/-- Job-record updates of `process_file` (`simplified_main.py` lines
191-276).  Writes in program order: `status = "processing"`, `progress =
25`, `progress = 90`, then either `status = "completed", progress = 100`
(one block of adjacent assignments) or `status = "failed"` plus the error
message; any exception is caught by the final handler which writes
`status = "failed"` and the error. -/
def process_file (o : SimpleOutcome) (j : JobRec) : List JobRec :=
  let j1 := { j with status := .processing }
  match o with
  | .setupError m => [j1, { j1 with status := .failed, errorMessage := some m }]
  | .procError m =>
      let j2 := { j1 with progress := 25 }
      [j1, j2, { j2 with status := .failed, errorMessage := some m }]
  | .finished success =>
      let j2 := { j1 with progress := 25 }
      let j3 := { j2 with progress := 90 }
      if success then
        [j1, j2, j3, { j3 with status := .completed, progress := 100 }]
      else
        [j1, j2, j3, { j3 with status := .failed, errorMessage := some "Processing failed" }]

/-- The status transitions the specification allows between two
successive observed job states: unchanged, `Pending → Processing`, or
`Processing → {Completed, Failed}`. -/
def statusStep (s t : JStatus) : Prop :=
  s = t ∨ (s = .pending ∧ t = .processing) ∨
    (s = .processing ∧ (t = .completed ∨ t = .failed))

/-- The per-write invariant of claim C1 between successive job-record
states: progress does not decrease, the status moves along an allowed
edge, and the earlier state is not terminal (terminal states receive no
further writes). -/
def okStep (a b : JobRec) : Prop :=
  a.progress ≤ b.progress ∧ statusStep a.status b.status ∧ a.status.isTerminal = false

/-! ## Region detection

`MangaProcessor.detect_text_regions` (`src/manga_processor.py` lines
37-101).  The contour bounding rectangles delivered by
`cv2.boundingRect` on contours of the binarized image are the input
candidates; the embedded part is the size filtering and the
padding-and-clamping.  The float comparison `w > img.shape[1] * 0.9` is
modelled exactly over the rationals as `10 * w > 9 * imgW`. -/

/-- An axis-aligned rectangle `(x, y, w, h)` in integer pixel
coordinates, origin top-left. -/
structure Box where
  x : Int
  y : Int
  w : Int
  h : Int
  deriving DecidableEq, Repr

/-- `self.padding` of `MangaProcessor`. -/
def padding : Int := 5

/-- The per-contour filtering and padding-and-clamping loop of
`detect_text_regions` (lines 63-86): drop rectangles with `w < 20 or
h < 20`, drop rectangles with `w > 0.9 * imgW or h > 0.9 * imgH`, then
pad each survivor by `padding` on every side, clamped to the image:
`x = max(0, x - padding)`, `w = min(imgW - x, w + 2 * padding)` (and
likewise for `y`, `h`). -/
def detectFilterPad (imgW imgH : Int) (cands : List Box) : List Box :=
  (cands.filter (fun b =>
      decide (¬(b.w < 20 ∨ b.h < 20) ∧ ¬(10 * b.w > 9 * imgW ∨ 10 * b.h > 9 * imgH)))).map
    (fun b =>
      let x := max 0 (b.x - padding)
      let y := max 0 (b.y - padding)
      let w := min (imgW - x) (b.w + 2 * padding)
      let h := min (imgH - y) (b.h + 2 * padding)
      ⟨x, y, w, h⟩)

/-- A decoded image all of whose pixels have the same grayscale value
`v`, with dimensions `w × h`. -/
structure UniformImage where
  v : Int
  w : Int
  h : Int

/-- `detect_text_regions` specialised to a uniform-color input.
`cv2.imread` failing (`img is None`) raises `ValueError`, modelled as the
`none` input.  On a uniform image, `threshold(gray, 180, 255,
THRESH_BINARY_INV)` yields an all-zero mask when `v > 180` and an
all-255 mask otherwise; dilation and erosion map a constant mask to
itself; `cv2.findContours` on an all-zero mask finds no contour and on an
all-255 (non-empty) mask finds a single external contour whose bounding
rectangle is the whole image `(0, 0, w, h)`.  The surviving candidates
then pass through the source's filter-and-pad loop. -/
def detect_text_regions_uniform (img : Option UniformImage) : Except String (List Box) :=
  match img with
  | none => .error "Could not read image"
  | some u =>
      let cands : List Box :=
        if u.v > 180 ∨ u.w ≤ 0 ∨ u.h ≤ 0 then [] else [⟨0, 0, u.w, u.h⟩]
      .ok (detectFilterPad u.w u.h cands)

/-! ## OCR extraction and filtering -/

/-- Python `s.strip()`: remove leading and trailing whitespace
(implemented over the string's character list so that it evaluates by
kernel reduction). -/
def pyStrip (s : String) : String :=
  String.mk (((s.data.dropWhile Char.isWhitespace).reverse.dropWhile Char.isWhitespace).reverse)

/-- Python `s.split()` on the character list: split on runs of
whitespace, producing no empty fields. -/
def splitWordsAux : List Char → List Char → List String
  | [], acc => if acc.isEmpty then [] else [String.mk acc.reverse]
  | c :: cs, acc =>
      if c.isWhitespace then
        if acc.isEmpty then splitWordsAux cs []
        else String.mk acc.reverse :: splitWordsAux cs []
      else splitWordsAux cs (c :: acc)

/-- Python `text.split()` (split on whitespace, no empty fields). -/
def splitWords (s : String) : List String := splitWordsAux s.data []

/-- Python `' '.join(text.strip().split())`: split on whitespace runs and
re-join with single spaces (`strip` before `split()` is a no-op). -/
def cleanupWs (s : String) : String :=
  String.intercalate " " (splitWords s)

/-- One row of the `pytesseract.image_to_data` output dict used by
`OCRService.process_image`: recognized text, confidence and bounding
box. -/
structure OcrEntry where
  text : String
  conf : Int
  left : Int
  top : Int
  width : Int
  height : Int
  deriving DecidableEq, Repr

/-- One element of the result list of `OCRService.process_image` (the
`color` and `font_size` rendering hints are carried along unchanged by
later stages and are not referred to by any claim, so they are not
modelled). -/
structure OcrResult where
  text : String
  box : Box
  confidence : Int
  deriving DecidableEq, Repr

/-- The result-building loop of `OCRService.process_image`
(`src/backend/app/services/ocr.py` lines 34-60): entries with
`int(data['conf'][i]) < 20` or whitespace-only text are skipped; every
other entry becomes a result with its text, box and confidence. -/
def process_image (entries : List OcrEntry) : List OcrResult :=
  entries.filterMap (fun e =>
    if e.conf < 20 ∨ pyStrip e.text = "" then none
    else some ⟨e.text, ⟨e.left, e.top, e.width, e.height⟩, e.conf⟩)

/-- `self.min_confidence` of `MangaProcessor` (`manga_processor.py` line
34, commented "Minimum confidence for OCR"). -/
def min_confidence : Int := 40

/-- A text region of `MangaProcessor`: detected box, extracted text,
translated text (both empty until the corresponding stage runs). -/
structure MRegion where
  box : Box
  text : String
  translatedText : String
  deriving DecidableEq, Repr

/-- `MangaProcessor.perform_ocr` (`manga_processor.py` lines 103-136).
The external extractor (spec §4.2) returns recognized text together with
a confidence; the source calls `pytesseract.image_to_string`, which
surfaces only the text, so the confidence component is discarded.  Each
region's text is set to the cleaned-up OCR output, then regions whose
text is empty after stripping are filtered out.  No confidence comparison
occurs anywhere in the function. -/
def perform_ocr (extract : Box → String × Int) (regions : List MRegion) : List MRegion :=
  (regions.map (fun r => { r with text := cleanupWs (extract r.box).1 })).filter
    (fun r => decide (pyStrip r.text ≠ ""))

/-! ## Translation -/

/-- `MangaProcessor.translate_text` (`manga_processor.py` lines 138-172).
The translator call (`self.translator.translate`) may raise, modelled by
`tr` returning `Except.error`.  A region with empty text gets
`translated_text = ""`.  For the rest, the `try/except Exception` block
stores the translation on success and on ANY error keeps the original
text as fallback (`region["translated_text"] = original_text`); the
function itself never propagates a translator error, which is why its
result type is a plain list rather than `Except`. -/
def mangaTranslateText (tr : String → Except String String) (regions : List MRegion) :
    List MRegion :=
  regions.map (fun r =>
    if r.text = "" then { r with translatedText := "" }
    else
      match tr r.text with
      | .ok t => { r with translatedText := t }
      | .error _ => { r with translatedText := r.text })

/-! ## Pixel-level rendering

`MangaProcessor.render_translated_image` (`manga_processor.py` lines
174-214) and `RenderingService.render_text_on_image` (`rendering.py`
lines 18-57).  The image is a total pixel-color map; the chosen font enters
through the abstract width measure `W`, the glyph height `fh`, and the
line advance `lh`.  `ImageDraw.rectangle([x0, y0, x1, y1], fill=c)`
paints every pixel with `x0 ≤ px ≤ x1` and `y0 ≤ py ≤ y1` — the PIL
rectangle is inclusive of both corner points.  `ImageDraw.text((tx, ty),
s)` is modelled as painting the text's bounding rectangle
`[tx, tx + W s) × [ty, ty + fh)`. -/

/-- An RGB color. -/
abbrev Color := Int × Int × Int

/-- An image as a total assignment of colors to pixel coordinates. -/
abbrev Img := Nat × Nat → Color

/-- The white fill used for region backgrounds. -/
def white : Color := (255, 255, 255)

/-- The black text color passed to `_draw_text_with_wrapping`. -/
def black : Color := (0, 0, 0)

/-- `draw.rectangle([x0, y0, x1, y1], fill = c)`: PIL paints the
rectangle inclusive of both given corner pixels. -/
def fillRect (img : Img) (x0 y0 x1 y1 : Nat) (c : Color) : Img :=
  fun p => if x0 ≤ p.1 ∧ p.1 ≤ x1 ∧ y0 ≤ p.2 ∧ p.2 ≤ y1 then c else img p

/-- `draw.text((tx, ty), s, fill = c)`: paints the half-open text
bounding rectangle `[tx, tx + W s) × [ty, ty + fh)`. -/
def drawTextRect (W : String → Nat) (fh : Nat) (img : Img) (tx ty : Nat) (s : String)
    (c : Color) : Img :=
  fun p => if tx ≤ p.1 ∧ p.1 < tx + W s ∧ ty ≤ p.2 ∧ p.2 < ty + fh then c else img p

/-- A region as consumed by `render_translated_image`: box coordinates in
the image plane and the translated text. -/
structure RRegion where
  x : Nat
  y : Nat
  w : Nat
  h : Nat
  translatedText : String
  deriving Repr

/-- The per-region body of `render_translated_image` (lines 185-208):
skip regions with empty `translated_text`; otherwise paint the white
background rectangle `[x, y, x + w, y + h]` and draw the wrapped text
lines produced by `_draw_text_with_wrapping`, each line `l` at position
`(x, y + y_offset)`. -/
def renderRegion (W : String → Nat) (fh lh : Nat) (img : Img) (r : RRegion) : Img :=
  if r.translatedText = "" then img
  else
    let bg := fillRect img r.x r.y (r.x + r.w) (r.y + r.h) white
    (mangaDraw W r.w lh r.h (splitWords r.translatedText)).foldl
      (fun acc pr => drawTextRect W fh acc r.x (r.y + pr.1) (lineStr pr.2) black) bg

/-- `MangaProcessor.render_translated_image`: process each region in
order on top of the original image. -/
def render_translated_image (W : String → Nat) (fh lh : Nat) (img : Img)
    (regions : List RRegion) : Img :=
  regions.foldl (renderRegion W fh lh) img

/-- Membership of a pixel in a region's box: the box `(x, y, w, h)`
covers exactly the pixels of the crop `img[y:y+h, x:x+w]`, i.e.
`x ≤ px < x + w` and `y ≤ py < y + h`. -/
def inBox (r : RRegion) (p : Nat × Nat) : Prop :=
  r.x ≤ p.1 ∧ p.1 < r.x + r.w ∧ r.y ≤ p.2 ∧ p.2 < r.y + r.h

/-- Membership of a pixel in the area a region's rendering may paint: the
inclusive background rectangle `[x, x + w] × [y, y + h]` or the bounding
rectangle of one of its drawn text lines. -/
def inPaintedArea (W : String → Nat) (fh lh : Nat) (r : RRegion) (p : Nat × Nat) : Prop :=
  (r.x ≤ p.1 ∧ p.1 ≤ r.x + r.w ∧ r.y ≤ p.2 ∧ p.2 ≤ r.y + r.h) ∨
    ∃ pr ∈ mangaDraw W r.w lh r.h (splitWords r.translatedText),
      r.x ≤ p.1 ∧ p.1 < r.x + W (lineStr pr.2) ∧
        r.y + pr.1 ≤ p.2 ∧ p.2 < r.y + pr.1 + fh

instance (r : RRegion) (p : Nat × Nat) : Decidable (inBox r p) := by
  unfold inBox
  infer_instance

instance (W : String → Nat) (fh lh : Nat) (r : RRegion) (p : Nat × Nat) :
    Decidable (inPaintedArea W fh lh r p) := by
  unfold inPaintedArea
  infer_instance

/-- A translated OCR result as consumed by
`RenderingService.render_text_on_image` (`rendering.py` lines 32-52):
box coordinates, the translated text (`result['text']` after
`translate_ocr_results` replaced it) and the text color. -/
structure SRegion where
  x : Nat
  y : Nat
  w : Nat
  h : Nat
  text : String
  color : Color
  deriving Repr

/-- The per-result body of `RenderingService.render_text_on_image`: the
white background rectangle `[x, y, x + width, y + height]` is painted
unconditionally — unlike `MangaProcessor.render_translated_image`, there
is no empty-text skip — and then `_draw_text_with_wrapping` draws the
wrapped, height-truncated lines, each line at `(x, y_pos)` in the
result's color (an empty text wraps to no lines, so only the background
is painted). -/
def render_service_region (W : String → Nat) (fh lh : Nat) (img : Img) (r : SRegion) : Img :=
  let bg := fillRect img r.x r.y (r.x + r.w) (r.y + r.h) white
  (renderDraw W r.w lh r.y r.h (splitWords r.text)).foldl
    (fun acc pr => drawTextRect W fh acc r.x pr.1 (lineStr pr.2) r.color) bg

/-- `RenderingService.render_text_on_image` (`rendering.py` lines
18-57): render each translated result in order on top of the decoded
image. -/
def render_text_on_image (W : String → Nat) (fh lh : Nat) (img : Img)
    (results : List SRegion) : Img :=
  results.foldl (render_service_region W fh lh) img

/-- Membership of a pixel in the area a rendering-service result may
paint: the inclusive background rectangle `[x, x + w] × [y, y + h]` or
the bounding rectangle of one of its drawn text lines (whose positions
are absolute, starting at `y`). -/
def inPaintedAreaS (W : String → Nat) (fh lh : Nat) (r : SRegion) (p : Nat × Nat) : Prop :=
  (r.x ≤ p.1 ∧ p.1 ≤ r.x + r.w ∧ r.y ≤ p.2 ∧ p.2 ≤ r.y + r.h) ∨
    ∃ pr ∈ renderDraw W r.w lh r.y r.h (splitWords r.text),
      r.x ≤ p.1 ∧ p.1 < r.x + W (lineStr pr.2) ∧ pr.1 ≤ p.2 ∧ p.2 < pr.1 + fh

instance (W : String → Nat) (fh lh : Nat) (r : SRegion) (p : Nat × Nat) :
    Decidable (inPaintedAreaS W fh lh r p) := by
  unfold inPaintedAreaS
  infer_instance

/-! ## Language registries -/

/-- `language_map` of `OCRService._map_language_to_tesseract`
(`src/backend/app/services/ocr.py` lines 138-154). -/
def language_map : List (String × String) :=
  [("Japanese", "jpn"), ("English", "eng"), ("Chinese", "chi_sim"), ("Korean", "kor"),
   ("Spanish", "spa"), ("French", "fra"), ("German", "deu"), ("Russian", "rus"),
   ("Italian", "ita"), ("Portuguese", "por"), ("Arabic", "ara")]

/-- `OCRService._map_language_to_tesseract`: look the language up in the
map, defaulting to English (`"eng"`). -/
def map_language_to_tesseract (language : String) : String :=
  (language_map.lookup language).getD "eng"

/-- `lang_to_iso` of `TranslationService._get_model_name`
(`src/backend/app/services/translation.py` lines 66-87). -/
def lang_to_iso : List (String × String) :=
  [("Japanese", "jap"), ("English", "en"), ("Chinese", "zh"), ("Korean", "kor"),
   ("Spanish", "es"), ("French", "fr"), ("German", "de"), ("Russian", "ru"),
   ("Italian", "it"), ("Portuguese", "pt"), ("Arabic", "ar")]

/-- `TranslationService._get_model_name`: both codes default to `"en"`
for unrecognized languages. -/
def get_model_name (source target : String) : String :=
  "Helsinki-NLP/opus-mt-" ++ (lang_to_iso.lookup source).getD "en" ++ "-" ++
    (lang_to_iso.lookup target).getD "en"

/-- `SUPPORTED_LANGUAGES` of `simplified_main.py` (lines 56-61): allowed
source languages, each with its allowed target languages. -/
def SUPPORTED_LANGUAGES : List (String × List String) :=
  [("Japanese", ["English", "Spanish", "French", "German"]),
   ("Chinese", ["English", "Spanish", "French", "German"]),
   ("Korean", ["English", "Spanish", "French", "German"]),
   ("English", ["Japanese", "Chinese", "Spanish", "French", "German"])]

/-- The language validation of `upload_file` in `simplified_main.py`
(lines 100-109): a source language that is not a key of
`SUPPORTED_LANGUAGES`, or a target language not listed for that source,
makes the endpoint raise `HTTPException(status_code=400, ...)` and the
submission is rejected (no job is created).  The error value is the HTTP
status code. -/
def validate_languages (source target : String) : Except Nat Unit :=
  match SUPPORTED_LANGUAGES.lookup source with
  | none => .error 400
  | some targets => if target ∈ targets then .ok () else .error 400

/-! # Lemmas

Supporting lemmas about the embedded functions, followed by the claim
theorems. -/

theorem mangaWrapAux_ne_nil (W : String → Nat) (maxW : Nat) (current rest : List String) :
    mangaWrapAux W maxW current rest ≠ [] := by
  induction rest generalizing current with
  | nil => simp [mangaWrapAux]
  | cons w rest ih =>
      simp only [mangaWrapAux]
      split
      · exact ih _
      · simp

theorem mangaWrapAux_head (W : String → Nat) (maxW : Nat) (current rest : List String) :
    ∃ t L, mangaWrapAux W maxW current rest = (current ++ t) :: L := by
  induction rest generalizing current with
  | nil => exact ⟨[], [], by simp [mangaWrapAux]⟩
  | cons w rest ih =>
      simp only [mangaWrapAux]
      split
      · obtain ⟨t, L, h⟩ := ih (current ++ [w])
        exact ⟨[w] ++ t, L, by rw [h]; simp⟩
      · exact ⟨[], mangaWrapAux W maxW [w] rest, by simp⟩

theorem positionedFrom_cons (lh y0 : Nat) (a : List String) (L : List (List String)) :
    positionedFrom lh y0 (a :: L) = (y0, a) :: positionedFrom lh (y0 + lh) L := rfl

theorem takeWhile_positionedFrom_eq_nil (lh y0 bound : Nat) (L : List (List String))
    (h : ¬ y0 ≤ bound) :
    (positionedFrom lh y0 L).takeWhile (fun pr => decide (pr.1 ≤ bound)) = [] := by
  cases L with
  | nil => simp [positionedFrom]
  | cons a L =>
      rw [positionedFrom_cons, List.takeWhile_cons]
      simp [h]

theorem mangaDrawAux_eq (W : String → Nat) (maxW lh maxH : Nat)
    (rest : List String) : ∀ (current : List String) (yoff : Nat), yoff ≤ maxH →
    mangaDrawAux W maxW lh maxH current yoff rest =
      (positionedFrom lh yoff (mangaWrapAux W maxW current rest)).takeWhile
        (fun pr => decide (pr.1 ≤ maxH)) := by
  induction rest with
  | nil =>
      intro current yoff hy
      simp only [mangaDrawAux, mangaWrapAux]
      rw [if_pos hy, positionedFrom_cons, List.takeWhile_cons]
      simp [hy, positionedFrom]
  | cons w rest ih =>
      intro current yoff hy
      simp only [mangaDrawAux, mangaWrapAux]
      split
      · exact ih _ _ hy
      · rw [positionedFrom_cons, List.takeWhile_cons]
        simp only [hy, decide_True, if_true]
        by_cases hb : yoff + lh > maxH
        · rw [if_pos hb, takeWhile_positionedFrom_eq_nil _ _ _ _ (by omega)]
        · rw [if_neg hb, ih _ _ (by omega)]

theorem renderDrawLines_eq (lh yEnd : Nat) (lines : List (List String)) : ∀ ypos : Nat,
    ypos ≤ yEnd →
    renderDrawLines lh yEnd ypos lines =
      (positionedFrom lh ypos lines).takeWhile (fun pr => decide (pr.1 ≤ yEnd)) := by
  induction lines with
  | nil => intro ypos _; simp [renderDrawLines, positionedFrom]
  | cons l rest ih =>
      intro ypos hy
      simp only [renderDrawLines]
      rw [positionedFrom_cons, List.takeWhile_cons]
      simp only [hy, decide_True, if_true]
      by_cases hb : ypos + lh > yEnd
      · rw [if_pos hb, takeWhile_positionedFrom_eq_nil _ _ _ _ (by omega)]
      · rw [if_neg hb, ih _ (by omega)]

theorem mem_positionedFrom {lh : Nat} {L : List (List String)} {p : Nat × List String} :
    ∀ {y0 : Nat}, p ∈ positionedFrom lh y0 L → p.2 ∈ L := by
  induction L with
  | nil => intro y0 hp; simp [positionedFrom] at hp
  | cons l L ih =>
      intro y0 hp
      simp only [positionedFrom] at hp
      rcases List.mem_cons.mp hp with hp | hp
      · simp [hp]
      · exact List.mem_cons_of_mem _ (ih hp)

theorem renderFirstLineFuel_adequate (W : String → Nat) (maxW : Nat) :
    ∀ (fuel : Nat) (ws : List String), ws.length ≤ fuel →
    renderFirstLineFuel W maxW fuel ws = renderFirstLineFuel W maxW ws.length ws := by
  intro fuel
  induction fuel with
  | zero =>
      intro ws hws
      have h0 : ws = [] := List.length_eq_zero.mp (Nat.le_zero.mp hws)
      subst h0
      rfl
  | succ f ih =>
      intro ws hws
      cases hn : ws.length with
      | zero =>
          have h0 : ws = [] := List.length_eq_zero.mp hn
          subst h0
          simp [renderFirstLineFuel, ite_self]
      | succ n =>
          simp only [renderFirstLineFuel]
          split
          · rfl
          split
          · rfl
          · have hdl : ws.dropLast.length = n := by simp [hn]
            rw [ih ws.dropLast (by rw [hdl]; omega), hdl]

theorem renderFirstLine_eq (W : String → Nat) (maxW : Nat) (ws : List String) :
    renderFirstLine W maxW ws =
      if lineWidth W ws ≤ maxW then ws
      else if ws.length ≤ 1 then ws
      else renderFirstLine W maxW ws.dropLast := by
  unfold renderFirstLine
  cases hn : ws.length with
  | zero =>
      have h0 : ws = [] := List.length_eq_zero.mp hn
      subst h0
      simp [renderFirstLineFuel, ite_self]
  | succ n =>
      simp only [renderFirstLineFuel, hn]
      split
      · rfl
      split
      · rfl
      · have hdl : ws.dropLast.length = n := by simp [hn]
        rw [hdl]

theorem renderFirstLine_append (W : String → Nat) (maxW : Nat) (ws : List String) :
    ∃ t, ws = renderFirstLine W maxW ws ++ t := by
  rw [renderFirstLine_eq]
  split
  · exact ⟨[], by simp⟩
  split
  · exact ⟨[], by simp⟩
  · rename_i h1 h2
    have hne : ws ≠ [] := by intro h; subst h; simp at h2
    obtain ⟨t, ht⟩ := renderFirstLine_append W maxW ws.dropLast
    refine ⟨t ++ [ws.getLast hne], ?_⟩
    rw [← List.append_assoc, ← ht, List.dropLast_append_getLast hne]
termination_by ws.length
decreasing_by
  simp only [List.length_dropLast]
  omega

theorem renderFirstLine_ne_nil (W : String → Nat) (maxW : Nat) (ws : List String)
    (hws : ws ≠ []) : renderFirstLine W maxW ws ≠ [] := by
  rw [renderFirstLine_eq]
  split
  · exact hws
  split
  · exact hws
  · rename_i h1 h2
    exact renderFirstLine_ne_nil W maxW ws.dropLast
      (by intro h; have := congrArg List.length h; simp at this; omega)
termination_by ws.length
decreasing_by
  simp only [List.length_dropLast]
  omega

theorem renderFirstLine_fits_or_single (W : String → Nat) (maxW : Nat) (ws : List String)
    (hws : ws ≠ []) :
    lineWidth W (renderFirstLine W maxW ws) ≤ maxW ∨ (renderFirstLine W maxW ws).length = 1 := by
  rw [renderFirstLine_eq]
  split
  · exact Or.inl (by assumption)
  split
  · rename_i h1 h2
    refine Or.inr ?_
    have : ws.length ≠ 0 := by simpa using hws
    omega
  · rename_i h1 h2
    exact renderFirstLine_fits_or_single W maxW ws.dropLast
      (by intro h; have := congrArg List.length h; simp at this; omega)
termination_by ws.length
decreasing_by
  simp only [List.length_dropLast]
  omega

theorem take_one_append {α : Type} (u t : List α) (hu : u ≠ []) :
    (u ++ t).take 1 = u.take 1 := by
  cases u with
  | nil => exact absurd rfl hu
  | cons a u => simp

theorem renderFirstLine_max (W : String → Nat) (maxW : Nat) (ws : List String)
    (hd : ws.drop (renderFirstLine W maxW ws).length ≠ []) :
    ¬ lineWidth W
        (renderFirstLine W maxW ws ++ (ws.drop (renderFirstLine W maxW ws).length).take 1) ≤
      maxW := by
  by_cases h1 : lineWidth W ws ≤ maxW
  · rw [renderFirstLine_eq, if_pos h1, List.drop_length] at hd
    exact absurd rfl hd
  by_cases h2 : ws.length ≤ 1
  · rw [renderFirstLine_eq, if_neg h1, if_pos h2, List.drop_length] at hd
    exact absurd rfl hd
  · have hne : ws ≠ [] := by intro h; subst h; simp at h2
    obtain ⟨init, last, rfl⟩ : ∃ i a, ws = i ++ [a] := by
      rcases ws.eq_nil_or_concat with h | ⟨i, a, h⟩
      · exact absurd h hne
      · exact ⟨i, a, by simpa [List.concat_eq_append] using h⟩
    have hlen : init.length + 1 = (init ++ [last]).length := by simp
    have heq : renderFirstLine W maxW (init ++ [last]) = renderFirstLine W maxW init := by
      rw [renderFirstLine_eq, if_neg h1, if_neg h2, List.dropLast_concat]
    rw [heq]
    obtain ⟨t, ht⟩ := renderFirstLine_append W maxW init
    set l := renderFirstLine W maxW init with hl
    rw [ht, List.append_assoc, List.drop_left]
    cases t with
    | nil =>
        simp only [List.append_nil] at ht
        have htake : List.take 1 ([] ++ [last]) = [last] := by simp
        rw [htake, ← ht]
        exact h1
    | cons b t' =>
        have hd' : init.drop l.length ≠ [] := by
          rw [ht, List.drop_left]
          simp
        have ih := renderFirstLine_max W maxW init hd'
        rw [← hl, ht, List.drop_left] at ih
        simpa using ih
termination_by ws.length
decreasing_by
  have hws : ws = init ++ [last] := by assumption
  rw [hws]
  simp

theorem mangaWrapAux_goodWrap (W : String → Nat) (maxW : Nat) (rest : List String) :
    ∀ current, current ≠ [] → (lineWidth W current ≤ maxW ∨ current.length = 1) →
    GoodWrap W maxW (current ++ rest) (mangaWrapAux W maxW current rest) := by
  induction rest with
  | nil =>
      intro current hc hf
      refine ⟨by simp [mangaWrapAux], ?_, ?_, by simp [mangaWrapAux]⟩
      · intro l hl
        simp only [mangaWrapAux, List.mem_singleton] at hl
        exact hl ▸ hc
      · intro l hl
        simp only [mangaWrapAux, List.mem_singleton] at hl
        exact hl ▸ hf
  | cons w rest ih =>
      intro current hc hf
      simp only [mangaWrapAux]
      split
      · rename_i hfit
        have hgw := ih (current ++ [w]) (by simp) (Or.inl hfit)
        have hX : (current ++ [w]) ++ rest = current ++ (w :: rest) := by simp
        rw [← hX]
        exact hgw
      · rename_i hfit
        obtain ⟨hj, hne, hfits, hch⟩ := ih [w] (by simp) (Or.inr rfl)
        refine ⟨?_, ?_, ?_, ?_⟩
        · rw [List.flatten_cons, hj]
          simp
        · intro l hl
          rcases List.mem_cons.mp hl with rfl | hl
          · exact hc
          · exact hne l hl
        · intro l hl
          rcases List.mem_cons.mp hl with rfl | hl
          · exact hf
          · exact hfits l hl
        · rw [List.chain'_cons']
          refine ⟨?_, hch⟩
          intro y hy
          obtain ⟨t, L', hL⟩ := mangaWrapAux_head W maxW [w] rest
          rw [hL] at hy
          simp only [List.head?_cons, Option.mem_def, Option.some.injEq] at hy
          subst hy
          rw [take_one_append _ _ (by simp)]
          simpa using hfit

theorem mangaWrap_goodWrap (W : String → Nat) (maxW : Nat) (words : List String) :
    GoodWrap W maxW words (mangaWrap W maxW words) := by
  cases words with
  | nil => exact ⟨rfl, by simp [mangaWrap], by simp [mangaWrap], by simp [mangaWrap]⟩
  | cons w rest =>
      have hgw := mangaWrapAux_goodWrap W maxW rest [w] (by simp) (Or.inr rfl)
      simpa [mangaWrap] using hgw

theorem renderWrapFuel_head (W : String → Nat) (maxW fuel : Nat) (ws : List String)
    (hws : ws ≠ []) (hfuel : 1 ≤ fuel) :
    ∃ L, renderWrapFuel W maxW fuel ws = renderFirstLine W maxW ws :: L := by
  cases ws with
  | nil => exact absurd rfl hws
  | cons w ws' =>
      cases fuel with
      | zero => omega
      | succ f => exact ⟨_, rfl⟩

theorem renderWrapFuel_goodWrap (W : String → Nat) (maxW : Nat) :
    ∀ (fuel : Nat) (ws : List String), ws.length ≤ fuel →
    GoodWrap W maxW ws (renderWrapFuel W maxW fuel ws) := by
  intro fuel
  induction fuel with
  | zero =>
      intro ws hws
      cases ws with
      | nil => exact ⟨rfl, by simp [renderWrapFuel], by simp [renderWrapFuel],
          by simp [renderWrapFuel]⟩
      | cons w ws' => simp at hws
  | succ f ih =>
      intro ws hws
      cases ws with
      | nil => exact ⟨rfl, by simp [renderWrapFuel], by simp [renderWrapFuel],
          by simp [renderWrapFuel]⟩
      | cons w ws' =>
          have hlne : renderFirstLine W maxW (w :: ws') ≠ [] :=
            renderFirstLine_ne_nil W maxW _ (by simp)
          obtain ⟨t, ht⟩ := renderFirstLine_append W maxW (w :: ws')
          have hdrop : (w :: ws').drop (renderFirstLine W maxW (w :: ws')).length = t := by
            set n := (renderFirstLine W maxW (w :: ws')).length with hn
            rw [ht, hn]
            exact List.drop_left _ _
          have hlent : t.length ≤ f := by
            have hlen := congrArg List.length ht
            simp only [List.length_cons, List.length_append] at hlen
            have hl1 : 0 < (renderFirstLine W maxW (w :: ws')).length :=
              List.length_pos.mpr hlne
            simp only [List.length_cons] at hws
            omega
          obtain ⟨hj, hne, hfits, hch⟩ := ih t hlent
          show GoodWrap W maxW (w :: ws')
            (renderFirstLine W maxW (w :: ws') ::
              renderWrapFuel W maxW f ((w :: ws').drop (renderFirstLine W maxW (w :: ws')).length))
          rw [hdrop]
          refine ⟨?_, ?_, ?_, ?_⟩
          · rw [List.flatten_cons, hj, ← ht]
          · intro l hl
            rcases List.mem_cons.mp hl with rfl | hl
            · exact hlne
            · exact hne l hl
          · intro l hl
            rcases List.mem_cons.mp hl with rfl | hl
            · exact renderFirstLine_fits_or_single W maxW _ (by simp)
            · exact hfits l hl
          · rw [List.chain'_cons']
            refine ⟨?_, hch⟩
            intro y hy
            cases htn : t with
            | nil =>
                rw [htn] at hy
                simp [renderWrapFuel] at hy
            | cons b t' =>
                have hf1 : 1 ≤ f := by
                  rw [htn] at hlent
                  simp only [List.length_cons] at hlent
                  omega
                obtain ⟨L', hL'⟩ := renderWrapFuel_head W maxW f t (by rw [htn]; simp) hf1
                rw [hL'] at hy
                simp only [List.head?_cons, Option.mem_def, Option.some.injEq] at hy
                subst hy
                have hfl_ne : renderFirstLine W maxW t ≠ [] :=
                  renderFirstLine_ne_nil W maxW t (by rw [htn]; simp)
                obtain ⟨t2, ht2⟩ := renderFirstLine_append W maxW t
                have htake : (renderFirstLine W maxW t).take 1 = t.take 1 := by
                  conv_rhs => rw [ht2]
                  exact (take_one_append _ _ hfl_ne).symm
                rw [htake]
                have hmax := renderFirstLine_max W maxW (w :: ws') (by rw [hdrop, htn]; simp)
                rw [hdrop] at hmax
                exact hmax

theorem renderWrap_goodWrap (W : String → Nat) (maxW : Nat) (words : List String) :
    GoodWrap W maxW words (renderWrap W maxW words) := by
  cases words with
  | nil => exact ⟨rfl, by simp [renderWrap], by simp [renderWrap], by simp [renderWrap]⟩
  | cons w rest =>
      exact renderWrapFuel_goodWrap W maxW (w :: rest).length (w :: rest) le_rfl

theorem lineWidth_le_append (W : String → Nat)
    (hm : ∀ ws w, lineWidth W ws ≤ lineWidth W (ws ++ [w])) (l t : List String) :
    lineWidth W l ≤ lineWidth W (l ++ t) := by
  induction t using List.reverseRecOn with
  | nil => simp
  | append_singleton t w ih =>
      calc lineWidth W l ≤ lineWidth W (l ++ t) := ih
        _ ≤ lineWidth W ((l ++ t) ++ [w]) := hm _ _
        _ = lineWidth W (l ++ (t ++ [w])) := by rw [List.append_assoc]

theorem goodWrap_no_ext (W : String → Nat) (maxW : Nat)
    (hm : ∀ ws w, lineWidth W ws ≤ lineWidth W (ws ++ [w])) {a u t : List String}
    (ha : a ≠ []) (hu : u ≠ [])
    (hbf : lineWidth W (a ++ u) ≤ maxW ∨ (a ++ u).length = 1)
    (hamax : ¬ lineWidth W (a ++ (u ++ t).take 1) ≤ maxW) : False := by
  have hlen : (a ++ u).length ≠ 1 := by
    have h1 : 0 < a.length := List.length_pos.mpr ha
    have h2 : 0 < u.length := List.length_pos.mpr hu
    simp only [List.length_append]
    omega
  have hfits : lineWidth W (a ++ u) ≤ maxW := hbf.resolve_right hlen
  have hdown : lineWidth W (a ++ u.take 1) ≤ lineWidth W (a ++ u) := by
    have h := lineWidth_le_append W hm (a ++ u.take 1) (u.drop 1)
    rwa [List.append_assoc, List.take_append_drop] at h
  exact hamax (by rw [take_one_append u t hu]; exact le_trans hdown hfits)

theorem goodWrap_first_line (W : String → Nat) (maxW : Nat)
    (hm : ∀ ws w, lineWidth W ws ≤ lineWidth W (ws ++ [w])) {a b s t : List String}
    (hab : a ++ s = b ++ t) (ha : a ≠ []) (hb : b ≠ [])
    (haf : lineWidth W a ≤ maxW ∨ a.length = 1)
    (hbf : lineWidth W b ≤ maxW ∨ b.length = 1)
    (hamax : s ≠ [] → ¬ lineWidth W (a ++ s.take 1) ≤ maxW)
    (hbmax : t ≠ [] → ¬ lineWidth W (b ++ t.take 1) ≤ maxW) : a = b := by
  rcases List.append_eq_append_iff.mp hab with ⟨u, hu1, hu2⟩ | ⟨u, hu1, hu2⟩
  · cases u with
    | nil => simpa using hu1.symm
    | cons x u' =>
        exfalso
        refine goodWrap_no_ext W maxW hm ha (u := x :: u') (t := t) (by simp) ?_ ?_
        · rw [← hu1]; exact hbf
        · rw [← hu2]
          exact hamax (by rw [hu2]; simp)
  · cases u with
    | nil => simpa using hu1
    | cons x u' =>
        exfalso
        refine goodWrap_no_ext W maxW hm hb (u := x :: u') (t := s) (by simp) ?_ ?_
        · rw [← hu1]; exact haf
        · rw [← hu2]
          exact hbmax (by rw [hu2]; simp)

theorem goodWrap_unique (W : String → Nat) (maxW : Nat)
    (hm : ∀ ws w, lineWidth W ws ≤ lineWidth W (ws ++ [w])) :
    ∀ (L1 L2 : List (List String)) (words : List String),
    GoodWrap W maxW words L1 → GoodWrap W maxW words L2 → L1 = L2 := by
  intro L1
  induction L1 with
  | nil =>
      intro L2 words h1 h2
      obtain ⟨hj1, _, _, _⟩ := h1
      obtain ⟨hj2, hne2, _, _⟩ := h2
      cases L2 with
      | nil => rfl
      | cons b L2' =>
          exfalso
          rw [← hj1] at hj2
          simp only [List.flatten_nil, List.flatten_cons] at hj2
          rcases List.append_eq_nil.mp hj2 with ⟨hb, _⟩
          exact hne2 b (List.mem_cons_self _ _) hb
  | cons a L1' ih =>
      intro L2 words h1 h2
      obtain ⟨hj1, hne1, hf1, hc1⟩ := h1
      obtain ⟨hj2, hne2, hf2, hc2⟩ := h2
      cases L2 with
      | nil =>
          exfalso
          rw [← hj2] at hj1
          simp only [List.flatten_nil, List.flatten_cons] at hj1
          rcases List.append_eq_nil.mp hj1 with ⟨hba, _⟩
          exact hne1 a (List.mem_cons_self _ _) hba
      | cons b L2' =>
          simp only [List.flatten_cons] at hj1 hj2
          have hab : a ++ L1'.flatten = b ++ L2'.flatten := hj1.trans hj2.symm
          have hmax1 : L1'.flatten ≠ [] → ¬ lineWidth W (a ++ L1'.flatten.take 1) ≤ maxW := by
            intro hs
            cases L1' with
            | nil => simp at hs
            | cons c L1'' =>
                rw [List.chain'_cons] at hc1
                have hcne : c ≠ [] := hne1 c (by simp)
                have htk : (c :: L1'').flatten.take 1 = c.take 1 := by
                  rw [List.flatten_cons]
                  exact take_one_append _ _ hcne
                rw [htk]
                exact hc1.1
          have hmax2 : L2'.flatten ≠ [] → ¬ lineWidth W (b ++ L2'.flatten.take 1) ≤ maxW := by
            intro hs
            cases L2' with
            | nil => simp at hs
            | cons c L2'' =>
                rw [List.chain'_cons] at hc2
                have hcne : c ≠ [] := hne2 c (by simp)
                have htk : (c :: L2'').flatten.take 1 = c.take 1 := by
                  rw [List.flatten_cons]
                  exact take_one_append _ _ hcne
                rw [htk]
                exact hc2.1
          have hfirst : a = b :=
            goodWrap_first_line W maxW hm hab (hne1 a (List.mem_cons_self _ _))
              (hne2 b (List.mem_cons_self _ _)) (hf1 a (List.mem_cons_self _ _))
              (hf2 b (List.mem_cons_self _ _)) hmax1 hmax2
          subst hfirst
          have hflat : L1'.flatten = L2'.flatten := List.append_cancel_left hab
          have hg1 : GoodWrap W maxW L1'.flatten L1' :=
            ⟨rfl, fun l hl => hne1 l (List.mem_cons_of_mem _ hl),
             fun l hl => hf1 l (List.mem_cons_of_mem _ hl), hc1.tail⟩
          have hg2 : GoodWrap W maxW L1'.flatten L2' :=
            ⟨hflat.symm, fun l hl => hne2 l (List.mem_cons_of_mem _ hl),
             fun l hl => hf2 l (List.mem_cons_of_mem _ hl), hc2.tail⟩
          rw [ih L2' L1'.flatten hg1 hg2]

theorem mangaDrawAux_width (W : String → Nat) (maxW lh maxH : Nat) (rest : List String) :
    ∀ current yoff, (lineWidth W current ≤ maxW ∨ current.length = 1) →
    ∀ p ∈ mangaDrawAux W maxW lh maxH current yoff rest,
      lineWidth W p.2 ≤ maxW ∨ p.2.length = 1 := by
  induction rest with
  | nil =>
      intro current yoff hc p hp
      simp only [mangaDrawAux] at hp
      split at hp
      · rcases List.mem_singleton.mp hp with rfl
        exact hc
      · simp at hp
  | cons w rest ih =>
      intro current yoff hc p hp
      simp only [mangaDrawAux] at hp
      split at hp
      · rename_i hfit
        exact ih _ _ (Or.inl hfit) p hp
      · split at hp
        · rcases List.mem_singleton.mp hp with rfl
          exact hc
        · rcases List.mem_cons.mp hp with rfl | hp
          · exact hc
          · exact ih [w] _ (Or.inr rfl) p hp

theorem intercalate_go_append (acc s w : String) (as : List String) :
    String.intercalate.go acc s (as ++ [w]) = String.intercalate.go acc s as ++ s ++ w := by
  induction as generalizing acc with
  | nil => rfl
  | cons a as ih =>
      show String.intercalate.go (acc ++ s ++ a) s (as ++ [w]) = _
      rw [ih]
      rfl

theorem lineWidth_length_mono (ws : List String) (w : String) :
    lineWidth String.length ws ≤ lineWidth String.length (ws ++ [w]) := by
  cases ws with
  | nil => exact Nat.zero_le _
  | cons a as =>
      show (String.intercalate " " (a :: (as ++ [w]))).length ≥ _
      have h1 : String.intercalate " " (a :: (as ++ [w])) =
          String.intercalate.go a " " (as ++ [w]) := rfl
      have h2 : String.intercalate " " (a :: as) = String.intercalate.go a " " as := rfl
      show _ ≤ (String.intercalate " " (a :: (as ++ [w]))).length
      rw [h1, intercalate_go_append]
      simp only [lineWidth, lineStr, h2, String.length_append]
      omega

/-! # Claim theorems -/

/-- C2: for every translated text and region box, every line either
implementation of `_draw_text_with_wrapping` draws has rendered width at
most the box width `maxW`, except a line consisting of a single word
(which is placed alone on its own line, never hyphenated, never combined
with another word). -/
theorem c2_drawn_lines_fit_or_single_word (W : String → Nat) (maxW lh maxH y h : Nat)
    (words : List String) :
    (∀ p ∈ mangaDraw W maxW lh maxH words, lineWidth W p.2 ≤ maxW ∨ p.2.length = 1) ∧
    (∀ p ∈ renderDraw W maxW lh y h words, lineWidth W p.2 ≤ maxW ∨ p.2.length = 1) := by
  constructor
  · intro p hp
    cases words with
    | nil => simp [mangaDraw] at hp
    | cons w rest =>
        exact mangaDrawAux_width W maxW lh maxH rest [w] 0 (Or.inr rfl) p hp
  · intro p hp
    have hmem : p.2 ∈ renderWrap W maxW words := by
      unfold renderDraw at hp
      rw [renderDrawLines_eq lh (y + h) _ y (Nat.le_add_right y h)] at hp
      exact mem_positionedFrom (((List.takeWhile_sublist _).mem hp))
    obtain ⟨_, _, hfits, _⟩ := renderWrap_goodWrap W maxW words
    exact hfits p.2 hmem

/-- Witness for C2 at a concrete input: the box is 7 wide, the words
"aa" "bb" wrap into one fitting line. -/
theorem c2_drawn_lines_fit_or_single_word_witness :
    (lineWidth String.length ((0, ["aa", "bb"]) : Nat × List String).2 ≤ 7 ∨
      ((0, ["aa", "bb"]) : Nat × List String).2.length = 1) ∧
    (lineWidth String.length ((0, ["aa", "bb"]) : Nat × List String).2 ≤ 7 ∨
      ((0, ["aa", "bb"]) : Nat × List String).2.length = 1) :=
  ⟨(c2_drawn_lines_fit_or_single_word String.length 7 2 10 0 10 ["aa", "bb"]).1
      (0, ["aa", "bb"]) (by decide),
   (c2_drawn_lines_fit_or_single_word String.length 7 2 10 0 10 ["aa", "bb"]).2
      (0, ["aa", "bb"]) (by decide)⟩

/-- C3: every line either implementation actually draws has its top
y-coordinate at most `box.y + box.height`, and the drawn lines are
exactly the wrapped lines laid out at `y + i * lh` truncated at the first
line whose position exceeds the box bottom — that line and all remaining
lines are silently dropped. -/
theorem c3_drawn_lines_within_height (W : String → Nat) (maxW lh y h : Nat)
    (words : List String) :
    (∀ p ∈ mangaDraw W maxW lh h words, y + p.1 ≤ y + h) ∧
    mangaDraw W maxW lh h words =
      (positionedFrom lh 0 (mangaWrap W maxW words)).takeWhile
        (fun pr => decide (pr.1 ≤ h)) ∧
    (∀ p ∈ renderDraw W maxW lh y h words, p.1 ≤ y + h) ∧
    renderDraw W maxW lh y h words =
      (positionedFrom lh y (renderWrap W maxW words)).takeWhile
        (fun pr => decide (pr.1 ≤ y + h)) := by
  have hmeq : mangaDraw W maxW lh h words =
      (positionedFrom lh 0 (mangaWrap W maxW words)).takeWhile
        (fun pr => decide (pr.1 ≤ h)) := by
    cases words with
    | nil => simp [mangaDraw, mangaWrap, positionedFrom]
    | cons w rest => exact mangaDrawAux_eq W maxW lh h rest [w] 0 (Nat.zero_le h)
  have hreq : renderDraw W maxW lh y h words =
      (positionedFrom lh y (renderWrap W maxW words)).takeWhile
        (fun pr => decide (pr.1 ≤ y + h)) :=
    renderDrawLines_eq lh (y + h) (renderWrap W maxW words) y (Nat.le_add_right y h)
  refine ⟨?_, hmeq, ?_, hreq⟩
  · intro p hp
    rw [hmeq] at hp
    have := List.mem_takeWhile_imp hp
    simp only [decide_eq_true_eq] at this
    omega
  · intro p hp
    rw [hreq] at hp
    have := List.mem_takeWhile_imp hp
    simpa using this

/-- Witness for C3 at a concrete input: box height 3, line height 2, four
words in a 7-wide box; the two wrapped lines are drawn at offsets 0 and
2, both within the box. -/
theorem c3_drawn_lines_within_height_witness :
    (5 + (0 : Nat) ≤ 5 + 3) ∧
    mangaDraw String.length 7 2 3 ["aa", "bb", "cc", "dd"] =
      (positionedFrom 2 0 (mangaWrap String.length 7 ["aa", "bb", "cc", "dd"])).takeWhile
        (fun pr => decide (pr.1 ≤ 3)) ∧
    ((5 : Nat), ["aa", "bb"]).1 ≤ 5 + 3 ∧
    renderDraw String.length 7 2 5 3 ["aa", "bb", "cc", "dd"] =
      (positionedFrom 2 5 (renderWrap String.length 7 ["aa", "bb", "cc", "dd"])).takeWhile
        (fun pr => decide (pr.1 ≤ 5 + 3)) := by
  obtain ⟨h1, h2, h3, h4⟩ := c3_drawn_lines_within_height String.length 7 2 5 3
    ["aa", "bb", "cc", "dd"]
  exact ⟨h1 (0, ["aa", "bb"]) (by decide), h2, h3 (5, ["aa", "bb"]) (by decide), h4⟩

/-- C10: assuming the text-width measure is monotone in appending a word,
the incremental greedy accumulator of
`MangaProcessor._draw_text_with_wrapping` and the move-last-word-to-next-
line loop of `RenderingService._draw_text_with_wrapping` partition the
words into exactly the same sequence of lines. -/
theorem c10_wrap_equivalence (W : String → Nat) (maxW : Nat) (words : List String)
    (hm : ∀ ws w, lineWidth W ws ≤ lineWidth W (ws ++ [w])) :
    mangaWrap W maxW words = renderWrap W maxW words :=
  goodWrap_unique W maxW hm _ _ words (mangaWrap_goodWrap W maxW words)
    (renderWrap_goodWrap W maxW words)

/-- Witness for C10 at a concrete input, with the string-length width
measure (monotone in appending a word). -/
theorem c10_wrap_equivalence_witness :
    mangaWrap String.length 7 ["aa", "bb", "cc", "dd"] =
      renderWrap String.length 7 ["aa", "bb", "cc", "dd"] :=
  c10_wrap_equivalence String.length 7 ["aa", "bb", "cc", "dd"] lineWidth_length_mono

/-- C1: for every job run through the pipeline (the Celery chain of
`tasks.py` under every combination of stage outcomes, and
`simplified_main.process_file` under every outcome), the successive
states of the job record have non-decreasing progress, the status only
moves along `Pending → Processing → {Completed, Failed}` (or stays
unchanged), and a terminal state receives no further status or progress
write.  Each `db.commit()` (respectively each contiguous block of job
dict assignments) is one observed record state. -/
theorem c1_pipeline_job_record (o1 o2 o3 : StageOutcome) (rp : String) (so : SimpleOutcome) :
    List.Chain' okStep (initialJob :: process_manga o1 o2 o3 rp initialJob) ∧
    List.Chain' okStep (initialJob :: process_file so initialJob) := by
  constructor
  · cases o1 <;> cases o2 <;> cases o3 <;>
      simp [process_manga, ocr_task, translation_task, rendering_task, StageOutcome.isOk,
        initialJob, List.chain'_cons, okStep, statusStep, JStatus.isTerminal]
  · cases so with
    | setupError m =>
        simp [process_file, initialJob, List.chain'_cons, okStep, statusStep, JStatus.isTerminal]
    | procError m =>
        simp [process_file, initialJob, List.chain'_cons, okStep, statusStep, JStatus.isTerminal]
    | finished success =>
        cases success <;>
          simp [process_file, initialJob, List.chain'_cons, okStep, statusStep,
            JStatus.isTerminal]

/-- C4 counterexample: a Translator error does NOT propagate out of
`MangaProcessor.translate_text` — it is replaced by fallback text.  With
a translator that raises ("API unavailable") on the region text "HELLO",
`translate_text` returns normally and sets `translated_text` to the
original text, so the job continues into rendering instead of failing. -/
theorem c4_translate_error_swallowed_counterexample :
    mangaTranslateText (fun _ => .error "API unavailable")
        [⟨⟨10, 10, 200, 40⟩, "HELLO", ""⟩] =
      [⟨⟨10, 10, 200, 40⟩, "HELLO", "HELLO"⟩] := by
  rfl

/-- C4 as amended: for every job whose Translator call raises an error
in `MangaProcessor.translate_text`, the error does NOT propagate out of
the translation stage: the `except Exception` handler catches it, the
region's `translated_text` is set to the original text as fallback, and
every region — one output per input region — still reaches the rendering
stage; the job does not end `Failed` on account of the translation
error.  (The Celery pipeline's translation stage cannot raise a
Translator error at all: `translation_task` calls the async
`translate_ocr_results` without `await` at `tasks.py` lines 106/112,
which only constructs a coroutine and never runs the Translator, so the
fallback path of `MangaProcessor.translate_text` is the program's only
behavior on a raising Translator.) -/
theorem c4_translator_error_fallback (tr : String → Except String String)
    (regions : List MRegion) :
    (mangaTranslateText tr regions).length = regions.length ∧
    ∀ r ∈ regions, ∀ e : String, r.text ≠ "" → tr r.text = .error e →
      { r with translatedText := r.text } ∈ mangaTranslateText tr regions := by
  constructor
  · simp [mangaTranslateText]
  · intro r hr e hne herr
    simp only [mangaTranslateText, List.mem_map]
    refine ⟨r, hr, ?_⟩
    rw [if_neg hne, herr]

/-- Witness for C4 (amended) at a concrete input: an erroring Translator
leaves the "HELLO" region in the output with its original text as the
translation. -/
theorem c4_translator_error_fallback_witness :
    (mangaTranslateText (fun _ => .error "API unavailable")
        [⟨⟨10, 10, 200, 40⟩, "HELLO", ""⟩]).length = 1 ∧
    (⟨⟨10, 10, 200, 40⟩, "HELLO", "HELLO"⟩ : MRegion) ∈
      mangaTranslateText (fun _ => .error "API unavailable")
        [⟨⟨10, 10, 200, 40⟩, "HELLO", ""⟩] :=
  ⟨(c4_translator_error_fallback (fun _ => .error "API unavailable")
      [⟨⟨10, 10, 200, 40⟩, "HELLO", ""⟩]).1,
   (c4_translator_error_fallback (fun _ => .error "API unavailable")
      [⟨⟨10, 10, 200, 40⟩, "HELLO", ""⟩]).2 ⟨⟨10, 10, 200, 40⟩, "HELLO", ""⟩
     (List.mem_singleton.mpr rfl) "API unavailable" (by decide) rfl⟩

/-- C5: every region box produced by the filter-pad-clamp loop of
`detect_text_regions`, starting from contour bounding rectangles that lie
inside the image (the guarantee of `cv2.boundingRect` on contours of the
image mask), satisfies `x ≥ 0`, `y ≥ 0`, `x + w ≤ imageWidth`,
`y + h ≤ imageHeight`, and still has `w ≥ 20` and `h ≥ 20` after the
padding is added and clamped. -/
theorem c5_region_boxes_in_bounds (imgW imgH : Int) (cands : List Box)
    (hc : ∀ b ∈ cands, 0 ≤ b.x ∧ 0 ≤ b.y ∧ 0 ≤ b.w ∧ 0 ≤ b.h ∧
      b.x + b.w ≤ imgW ∧ b.y + b.h ≤ imgH) :
    ∀ r ∈ detectFilterPad imgW imgH cands,
      0 ≤ r.x ∧ 0 ≤ r.y ∧ r.x + r.w ≤ imgW ∧ r.y + r.h ≤ imgH ∧ 20 ≤ r.w ∧ 20 ≤ r.h := by
  intro r hr
  simp only [detectFilterPad, List.mem_map, List.mem_filter] at hr
  obtain ⟨b, ⟨hbmem, hbf⟩, rfl⟩ := hr
  obtain ⟨hx, hy, hw, hh, hxw, hyh⟩ := hc b hbmem
  simp only [decide_eq_true_eq, not_or, not_lt] at hbf
  simp only [padding]
  refine ⟨le_max_left _ _, le_max_left _ _, ?_, ?_, ?_, ?_⟩ <;> omega

/-- Witness for C5 at a concrete input: a 25×25 candidate at (30, 30) in
a 100×100 image becomes the padded box (25, 25, 35, 35). -/
theorem c5_region_boxes_in_bounds_witness :
    (0 : Int) ≤ 25 ∧ (0 : Int) ≤ 25 ∧ (25 : Int) + 35 ≤ 100 ∧ (25 : Int) + 35 ≤ 100 ∧
      (20 : Int) ≤ 35 ∧ (20 : Int) ≤ 35 :=
  c5_region_boxes_in_bounds 100 100 [⟨30, 30, 25, 25⟩] (by decide) ⟨25, 25, 35, 35⟩
    (by decide)

/-- C8: on every decodable uniform-color image (any grayscale value,
light or dark, any dimensions), `detect_text_regions` returns the empty
region list as a normal result — no error is raised for zero regions.  A
bright uniform image yields an empty mask (no contours); a dark one
yields a full-image contour, which the `w > 0.9 * imgW` filter (or the
minimum-size filter for tiny images) always discards. -/
theorem c8_uniform_image_empty (u : UniformImage) :
    detect_text_regions_uniform (some u) = .ok [] := by
  simp only [detect_text_regions_uniform]
  split
  · simp [detectFilterPad]
  · rename_i hcond
    push_neg at hcond
    obtain ⟨hv, hw, hh⟩ := hcond
    have hp : ¬ (¬((⟨0, 0, u.w, u.h⟩ : Box).w < 20 ∨ (⟨0, 0, u.w, u.h⟩ : Box).h < 20) ∧
        ¬(10 * (⟨0, 0, u.w, u.h⟩ : Box).w > 9 * u.w ∨
          10 * (⟨0, 0, u.w, u.h⟩ : Box).h > 9 * u.h)) := by
      simp only []
      omega
    simp only [detectFilterPad, List.filter_cons, decide_eq_true_eq]
    rw [if_neg hp]
    simp

/-- C6 counterexample: in `MangaProcessor.perform_ocr` no confidence
comparison exists.  A region whose extraction returns the non-empty text
"HELLO" with confidence 5 — far below the configured
`min_confidence = 40` — survives the filter and goes on to translation. -/
theorem c6_low_confidence_region_kept_counterexample :
    perform_ocr (fun _ => ("HELLO", 5)) [⟨⟨0, 0, 30, 30⟩, "", ""⟩] =
      [⟨⟨0, 0, 30, 30⟩, "HELLO", ""⟩] ∧ (5 : Int) < min_confidence := by
  exact ⟨by decide, by decide⟩

/-- C6 as amended: regions with empty extracted text are dropped before
translation in both pipelines; the backend `OCRService.process_image`
additionally drops entries below its hardcoded confidence threshold 20,
so every result it returns has confidence ≥ 20 and non-empty text; but
`MangaProcessor.perform_ocr` filters on non-empty text only — its
configured `min_confidence` (40) is never enforced, so regions reaching
the Translator there may have arbitrarily low extraction confidence (see
the counterexample). -/
theorem c6_filtering_before_translation (entries : List OcrEntry)
    (extract : Box → String × Int) (regions : List MRegion) :
    (∀ r ∈ process_image entries, 20 ≤ r.confidence ∧ pyStrip r.text ≠ "") ∧
    (∀ r ∈ perform_ocr extract regions, pyStrip r.text ≠ "") := by
  constructor
  · intro r hr
    simp only [process_image, List.mem_filterMap] at hr
    obtain ⟨e, hmem, he⟩ := hr
    by_cases h : e.conf < 20 ∨ pyStrip e.text = ""
    · rw [if_pos h] at he
      exact absurd he (by simp)
    · rw [if_neg h] at he
      push_neg at h
      obtain rfl := Option.some.inj he
      constructor
      · show (20 : Int) ≤ e.conf
        omega
      · show pyStrip e.text ≠ ""
        exact h.2
  · intro r hr
    simp only [perform_ocr, List.mem_filter] at hr
    exact of_decide_eq_true hr.2

/-- Witness for C6 (amended) at concrete inputs. -/
theorem c6_filtering_before_translation_witness :
    ((20 : Int) ≤ 30 ∧ pyStrip "HI" ≠ "") ∧ pyStrip "HELLO" ≠ "" :=
  ⟨(c6_filtering_before_translation [⟨"HI", 30, 0, 0, 5, 5⟩] (fun _ => ("", 0)) []).1
      ⟨"HI", ⟨0, 0, 5, 5⟩, 30⟩ (by decide),
   (c6_filtering_before_translation [] (fun _ => ("HELLO", 5))
        [⟨⟨0, 0, 30, 30⟩, "", ""⟩]).2 ⟨⟨0, 0, 30, 30⟩, "HELLO", ""⟩ (by decide)⟩

/-- C9 counterexample: a source language outside the registry does not
fall back to the default — `upload_file` in `simplified_main.py` rejects
the submission with HTTP 400, so the pipeline never runs for it. -/
theorem c9_unsupported_language_rejected_counterexample :
    validate_languages "Klingon" "English" = .error 400 := by
  rfl

/-- C9 as amended: inside the processing services an unrecognized
language falls back to the English defaults — `_map_language_to_tesseract`
returns "eng" and `_get_model_name` builds the en-en model name — but the
simplified API upload endpoint validates both languages against its
`SUPPORTED_LANGUAGES` table and rejects an unsupported source (or target)
with HTTP 400 at submission instead of substituting the default. -/
theorem c9_language_fallback_and_rejection (lang source target : String)
    (h1 : language_map.lookup lang = none)
    (h2 : lang_to_iso.lookup lang = none)
    (h3 : SUPPORTED_LANGUAGES.lookup source = none) :
    map_language_to_tesseract lang = "eng" ∧
    get_model_name lang lang = "Helsinki-NLP/opus-mt-en-en" ∧
    validate_languages source target = .error 400 := by
  refine ⟨?_, ?_, ?_⟩
  · simp [map_language_to_tesseract, h1]
  · simp [get_model_name, h2]
  · simp [validate_languages, h3]

/-- Witness for C9 (amended) at a concrete unrecognized language. -/
theorem c9_language_fallback_and_rejection_witness :
    map_language_to_tesseract "Klingon" = "eng" ∧
    get_model_name "Klingon" "Klingon" = "Helsinki-NLP/opus-mt-en-en" ∧
    validate_languages "Klingon" "English" = .error 400 :=
  c9_language_fallback_and_rejection "Klingon" "Klingon" "English" (by decide) (by decide)
    (by decide)

theorem foldl_drawTextRect_frame (W : String → Nat) (fh : Nat) (rx ry : Nat)
    (p : Nat × Nat) (lines : List (Nat × List String)) :
    ∀ acc : Img,
    (∀ pr ∈ lines, ¬ (rx ≤ p.1 ∧ p.1 < rx + W (lineStr pr.2) ∧
        ry + pr.1 ≤ p.2 ∧ p.2 < ry + pr.1 + fh)) →
    (lines.foldl (fun acc pr => drawTextRect W fh acc rx (ry + pr.1) (lineStr pr.2) black)
        acc) p = acc p := by
  induction lines with
  | nil => intro acc _; rfl
  | cons q qs ih =>
      intro acc hq
      rw [List.foldl_cons, ih _ (fun pr hpr => hq pr (List.mem_cons_of_mem _ hpr))]
      simp only [drawTextRect]
      rw [if_neg (hq q (List.mem_cons_self _ _))]

theorem renderRegion_frame (W : String → Nat) (fh lh : Nat) (img : Img) (r : RRegion)
    (p : Nat × Nat) (h : ¬ inPaintedArea W fh lh r p) :
    renderRegion W fh lh img r p = img p := by
  rw [inPaintedArea] at h
  have hbg : ¬ (r.x ≤ p.1 ∧ p.1 ≤ r.x + r.w ∧ r.y ≤ p.2 ∧ p.2 ≤ r.y + r.h) :=
    fun hc => h (Or.inl hc)
  have htext : ∀ pr ∈ mangaDraw W r.w lh r.h (splitWords r.translatedText),
      ¬ (r.x ≤ p.1 ∧ p.1 < r.x + W (lineStr pr.2) ∧
          r.y + pr.1 ≤ p.2 ∧ p.2 < r.y + pr.1 + fh) :=
    fun pr hpr hc => h (Or.inr ⟨pr, hpr, hc⟩)
  rw [renderRegion]
  split
  · rfl
  · rw [foldl_drawTextRect_frame W fh r.x r.y p _ _ htext]
    simp only [fillRect]
    rw [if_neg hbg]

/-- C7 counterexample: with the identity Translator (the region's
translated text equals its extracted text "a"), the rendered output
differs from the input at pixel (10, 10), which lies OUTSIDE the region
box (0, 0, 10, 10) (the box covers pixels `[0, 10) × [0, 10)`, as in the
detection-time crop `img[y:y+h, x:x+w]`): the PIL background rectangle
`draw.rectangle([x, y, x+w, y+h])` is inclusive of both corners and
paints the column `x + w` and row `y + h` white. -/
theorem c7_pixel_outside_box_changed_counterexample :
    render_translated_image String.length 1 1 (fun _ => black) [⟨0, 0, 10, 10, "a"⟩]
        (10, 10) = white ∧
    (fun _ => black : Img) (10, 10) = black ∧
    ¬ inBox ⟨0, 0, 10, 10, "a"⟩ (10, 10) ∧
    white ≠ black := by
  refine ⟨by decide, rfl, by decide, by decide⟩

theorem foldl_drawTextRect_frame_abs (W : String → Nat) (fh : Nat) (rx : Nat) (c : Color)
    (p : Nat × Nat) (lines : List (Nat × List String)) :
    ∀ acc : Img,
    (∀ pr ∈ lines, ¬ (rx ≤ p.1 ∧ p.1 < rx + W (lineStr pr.2) ∧
        pr.1 ≤ p.2 ∧ p.2 < pr.1 + fh)) →
    (lines.foldl (fun acc pr => drawTextRect W fh acc rx pr.1 (lineStr pr.2) c) acc) p =
      acc p := by
  induction lines with
  | nil => intro acc _; rfl
  | cons q qs ih =>
      intro acc hq
      rw [List.foldl_cons, ih _ (fun pr hpr => hq pr (List.mem_cons_of_mem _ hpr))]
      simp only [drawTextRect]
      rw [if_neg (hq q (List.mem_cons_self _ _))]

theorem render_service_region_frame (W : String → Nat) (fh lh : Nat) (img : Img)
    (r : SRegion) (p : Nat × Nat) (h : ¬ inPaintedAreaS W fh lh r p) :
    render_service_region W fh lh img r p = img p := by
  rw [inPaintedAreaS] at h
  have hbg : ¬ (r.x ≤ p.1 ∧ p.1 ≤ r.x + r.w ∧ r.y ≤ p.2 ∧ p.2 ≤ r.y + r.h) :=
    fun hc => h (Or.inl hc)
  have htext : ∀ pr ∈ renderDraw W r.w lh r.y r.h (splitWords r.text),
      ¬ (r.x ≤ p.1 ∧ p.1 < r.x + W (lineStr pr.2) ∧ pr.1 ≤ p.2 ∧ p.2 < pr.1 + fh) :=
    fun pr hpr hc => h (Or.inr ⟨pr, hpr, hc⟩)
  rw [render_service_region]
  rw [foldl_drawTextRect_frame_abs W fh r.x r.color p _ _ htext]
  simp only [fillRect]
  rw [if_neg hbg]

theorem render_translated_image_frame (W : String → Nat) (fh lh : Nat) (img : Img)
    (regions : List RRegion) (p : Nat × Nat)
    (h : ∀ r ∈ regions, ¬ inPaintedArea W fh lh r p) :
    render_translated_image W fh lh img regions p = img p := by
  induction regions generalizing img with
  | nil => rfl
  | cons r rs ih =>
      have hstep : render_translated_image W fh lh img (r :: rs) =
          render_translated_image W fh lh (renderRegion W fh lh img r) rs := rfl
      rw [hstep,
        ih (renderRegion W fh lh img r) (fun r' hr' => h r' (List.mem_cons_of_mem _ hr'))]
      exact renderRegion_frame W fh lh img r p (h r (List.mem_cons_self _ _))

theorem render_text_on_image_frame (W : String → Nat) (fh lh : Nat) (img : Img)
    (results : List SRegion) (p : Nat × Nat)
    (h : ∀ r ∈ results, ¬ inPaintedAreaS W fh lh r p) :
    render_text_on_image W fh lh img results p = img p := by
  induction results generalizing img with
  | nil => rfl
  | cons r rs ih =>
      have hstep : render_text_on_image W fh lh img (r :: rs) =
          render_text_on_image W fh lh (render_service_region W fh lh img r) rs := rfl
      rw [hstep,
        ih (render_service_region W fh lh img r)
          (fun r' hr' => h r' (List.mem_cons_of_mem _ hr'))]
      exact render_service_region_frame W fh lh img r p (h r (List.mem_cons_self _ _))

/-- C7 as amended: for both renderers —
`MangaProcessor.render_translated_image` and
`RenderingService.render_text_on_image` — the rendered output is
pixel-for-pixel identical to the input at every pixel lying outside all
regions' painted areas, where a region's painted area is its background
rectangle `[x, x + w] × [y, y + h]` — one pixel wider and taller than the
box, because the PIL rectangle fill includes both corner points — together
with the bounding rectangles of its drawn text lines (which can extend
beyond the box for an overlong single word, and below the last line's
top).  Only pixels inside some region's painted area may differ, whether
or not the Translator was the identity. -/
theorem c7_render_changes_only_painted_areas (W : String → Nat) (fh lh : Nat) (img : Img)
    (regions : List RRegion) (results : List SRegion) (p : Nat × Nat)
    (h1 : ∀ r ∈ regions, ¬ inPaintedArea W fh lh r p)
    (h2 : ∀ r ∈ results, ¬ inPaintedAreaS W fh lh r p) :
    render_translated_image W fh lh img regions p = img p ∧
    render_text_on_image W fh lh img results p = img p :=
  ⟨render_translated_image_frame W fh lh img regions p h1,
   render_text_on_image_frame W fh lh img results p h2⟩

/-- Witness for C7 (amended) at a concrete input: pixel (15, 15) is
outside the painted area of the single region of each renderer and keeps
its input color. -/
theorem c7_render_changes_only_painted_areas_witness :
    render_translated_image String.length 1 1 (fun _ => black) [⟨0, 0, 10, 10, "a"⟩]
        (15, 15) = (fun _ => black : Img) (15, 15) ∧
    render_text_on_image String.length 1 1 (fun _ => black) [⟨0, 0, 10, 10, "a", black⟩]
        (15, 15) = (fun _ => black : Img) (15, 15) :=
  c7_render_changes_only_painted_areas String.length 1 1 (fun _ => black)
    [⟨0, 0, 10, 10, "a"⟩] [⟨0, 0, 10, 10, "a", black⟩] (15, 15) (by decide) (by decide)

end MangaTranslator
